import Mathlib

/-!
Shallow embedding of `smart_traffic_ai.py`: a discrete-time simulation of a
four-way intersection whose signal durations are chosen by a tabular
Q-learning controller.  Python numbers are modelled as rationals, the
global `random` generator as an explicit stream of draws, and the
simulation's `while` loops as fuel-indexed recursions returning `Option`.
-/

/-- Compass directions of the four lanes. -/
inductive Dir
  | N | S | E | W
deriving DecidableEq

/-- Signal phases: `NS` gives right-of-way to N and S, `EW` to E and W. -/
inductive Phase
  | NS | EW
deriving DecidableEq

/-- `Vehicle`: arrival record; `depart_time` is `none` until served. -/
structure Vehicle where
  arrival_time : ℚ
  depart_time : Option ℚ
deriving DecidableEq

/-- `Lane`: a FIFO queue of vehicles (head of the list = head of the deque). -/
structure Lane where
  queue : List Vehicle
deriving DecidableEq

/-- `Lane.add_vehicle`: append at the tail. -/
def Lane.add_vehicle (l : Lane) (v : Vehicle) : Lane :=
  ⟨l.queue ++ [v]⟩

/-- `Lane.remove_vehicle`: pop the head, stamping its departure time;
`none` when the lane is empty. -/
def Lane.remove_vehicle (l : Lane) (t : ℚ) : Option Vehicle × Lane :=
  match l.queue with
  | [] => (none, l)
  | v :: rest => (some { v with depart_time := some t }, ⟨rest⟩)

/-- `Lane.qlen`: number of queued vehicles. -/
def Lane.qlen (l : Lane) : ℕ :=
  l.queue.length

/-- `Intersection`: one lane per direction plus the service rate. -/
structure Intersection where
  lanes : Dir → Lane
  service_rate : ℚ

/-- `Intersection.add_vehicle`: append a vehicle to the named lane. -/
def Intersection.add_vehicle (i : Intersection) (d : Dir) (v : Vehicle) : Intersection :=
  { i with lanes := fun d' => if d' = d then (i.lanes d).add_vehicle v else i.lanes d' }

/-- `Intersection.queue_lengths`: snapshot of the four queue lengths. -/
def Intersection.queue_lengths (i : Intersection) : Dir → ℕ :=
  fun d => (i.lanes d).qlen

/-- Python `int(q)` on a real number: truncation toward zero. -/
def pyInt (q : ℚ) : ℤ :=
  if q < 0 then -⌊-q⌋ else ⌊q⌋

/-- The two directions served by a phase, in the source's iteration order. -/
def activeDirs : Phase → Dir × Dir
  | .NS => (.N, .S)
  | .EW => (.E, .W)

/-- Python `max(dirs, key=qlen)` over the two active directions: the first
direction attaining the maximal queue length (ties keep the first). -/
def serveBest (i : Intersection) (d1 d2 : Dir) : Dir :=
  if (i.lanes d1).qlen < (i.lanes d2).qlen then d2 else d1

/-- The `for _ in range(cap)` service loop of `Intersection.serve`:
repeatedly remove one vehicle from the currently longest active lane,
stopping early when that lane is empty. -/
def serveLoop (d1 d2 : Dir) (t : ℚ) : ℕ → Intersection → List Vehicle × Intersection
  | 0, i => ([], i)
  | n + 1, i =>
    let best := serveBest i d1 d2
    if (i.lanes best).qlen = 0 then ([], i)
    else
      let (v, l') := (i.lanes best).remove_vehicle t
      let i' : Intersection := { i with lanes := fun d => if d = best then l' else i.lanes d }
      let (vs, i'') := serveLoop d1 d2 t n i'
      (v.toList ++ vs, i'')

/-- `Intersection.serve`: serve up to `int(service_rate * dt)` vehicles from
the two active-phase lanes, stamping departures with `t`. -/
def Intersection.serve (i : Intersection) (phase : Phase) (dt t : ℚ) :
    List Vehicle × Intersection :=
  let ds := activeDirs phase
  let cap := (pyInt (i.service_rate * dt)).toNat
  serveLoop ds.1 ds.2 t cap i

/-- `Sensor`: discretizer with a fixed ascending list of bin edges. -/
structure Sensor where
  bins : List ℚ

/-- The sensor with the source's default bins `(0, 3, 6, 10, 20)`. -/
def defaultSensor : Sensor :=
  ⟨[0, 3, 6, 10, 20]⟩

/-- The indexed scan inside `Sensor.disc`: return the index of the first
edge `b` with `v ≤ b`, or the total number of edges when none qualifies. -/
def discGo (v : ℚ) : List ℚ → ℕ → ℕ
  | [], i => i
  | b :: bs, i => if v ≤ b then i else discGo v bs (i + 1)

/-- `Sensor.disc`: discretize a congestion value against the bin edges. -/
def Sensor.disc (s : Sensor) (v : ℚ) : ℕ :=
  discGo v s.bins 0

/-- The RL observation: `(ns_bin, ew_bin, imbalance)`. -/
def RLState : Type :=
  ℕ × ℕ × ℤ

instance : DecidableEq RLState := by
  unfold RLState
  infer_instance

/-- `Sensor.read`: discretized combined queue lengths of N+S and E+W plus
the three-valued imbalance indicator. -/
def Sensor.read (s : Sensor) (i : Intersection) : RLState :=
  let q := i.queue_lengths
  let ns := q .N + q .S
  let ew := q .E + q .W
  let diff : ℤ := if (ns : ℤ) - ew > 3 then 1 else if (ew : ℤ) - ns > 3 then -1 else 0
  (s.disc ns, s.disc ew, diff)

/-- The single seedable random source: the Python-global `random` generator,
modelled as a stream of rational draws (each in `[0,1)`) and a cursor. -/
structure Rng where
  stream : ℕ → ℚ
  idx : ℕ

/-- One draw of `random.random()`. -/
def Rng.next (r : Rng) : ℚ × Rng :=
  (r.stream r.idx, ⟨r.stream, r.idx + 1⟩)

/-- One draw of `random.randrange(n)`: a draw from the same source mapped
into `[0, n)`. -/
def Rng.randrange (r : Rng) (n : ℕ) : ℕ × Rng :=
  let (u, r') := r.next
  ((⌊u * (n : ℚ)⌋).toNat % n, r')

/-- Python `max(xs)` on a nonempty list of numbers.  Python raises on an
empty list; callers guarantee nonemptiness, so the `[]` branch is junk. -/
def pyMaxList : List ℚ → ℚ
  | [] => 0
  | x :: xs => xs.foldl max x

/-- Python `min(xs)` on a nonempty list of numbers (junk `0` when empty). -/
def pyMinList : List ℚ → ℚ
  | [] => 0
  | x :: xs => xs.foldl min x

/-- The left-to-right scan of Python `max(range(n), key=f)`: `b` is the
current best index, `i` the next index, and the counter the number of
indices still to scan.  The best index is replaced only on a strict
improvement, so the first index attaining the maximum wins. -/
def argmaxGo (f : ℕ → ℚ) : ℕ → ℕ → ℕ → ℕ
  | b, _, 0 => b
  | b, i, steps + 1 => argmaxGo f (if f b < f i then i else b) (i + 1) steps

/-- Python `max(range(n), key=f)`: the least index in `[0, n)` attaining
the maximum of `f`.  Python raises on `n = 0`; that branch is junk. -/
def pyArgmax (f : ℕ → ℚ) : ℕ → ℕ
  | 0 => 0
  | n + 1 => argmaxGo f 0 1 n

/-- `QLearning`: the fixed action list, hyperparameters, and the value
table.  The Python `defaultdict(float)` is modelled by its numeric reads:
a total map defaulting to `0` on unseen keys. -/
structure QLearning where
  actions : List (Phase × ℚ)
  α : ℚ
  γ : ℚ
  ε : ℚ
  q : RLState × ℕ → ℚ

/-- `QLearning.choose`: ε-greedy action selection; draws come from the
single random source. -/
def QLearning.choose (c : QLearning) (s : RLState) (rng : Rng) : ℕ × Rng :=
  let (u, r1) := rng.next
  if u < c.ε then r1.randrange c.actions.length
  else (pyArgmax (fun a => c.q (s, a)) c.actions.length, r1)

/-- `QLearning.update`: the temporal-difference update of the single entry
`(s, a)`. -/
def QLearning.update (c : QLearning) (s : RLState) (a : ℕ) (r : ℚ) (ns : RLState) :
    QLearning :=
  let cur := c.q (s, a)
  let best := pyMaxList ((List.range c.actions.length).map fun na => c.q (ns, na))
  { c with q := fun p => if p = (s, a) then cur + c.α * (r + c.γ * best - cur) else c.q p }

/-- `TrafficGenerator`: per-direction arrival rates.  `fexp` models the
float function `math.exp`, which is transcendental and so is carried as an
abstract map; theorems assume only its positivity where needed. -/
structure TrafficGenerator where
  rates : Dir → ℚ
  fexp : ℚ → ℚ

/-- The `while True` loop of the hand-rolled Poisson sampler: multiply the
running product `p` by fresh uniform draws until it drops to `L`,
returning the number `k` of failed comparisons.  The loop has no intrinsic
bound, so it carries fuel and returns `none` on exhaustion. -/
def poissonLoop (L : ℚ) : ℕ → ℚ → ℕ → Rng → Option (ℕ × Rng)
  | 0, _, _, _ => none
  | fuel + 1, p, k, rng =>
    let (u, rng') := rng.next
    if p * u ≤ L then some (k, rng') else poissonLoop L fuel (p * u) (k + 1) rng'

/-- Iteration order of the `rates` dict in the source: insertion order. -/
def dirList : List Dir :=
  [.N, .S, .E, .W]

/-- The per-direction loop of `TrafficGenerator.generate`. -/
def genDirs (g : TrafficGenerator) (dt : ℚ) (pFuel : ℕ) :
    List Dir → (Dir → ℕ) → Rng → Option ((Dir → ℕ) × Rng)
  | [], acc, rng => some (acc, rng)
  | d :: ds, acc, rng =>
    let lam := g.rates d * dt
    match poissonLoop (g.fexp (-lam)) pFuel 1 0 rng with
    | none => none
    | some (k, rng') => genDirs g dt pFuel ds (fun d' => if d' = d then k else acc d') rng'

/-- `TrafficGenerator.generate`: one Poisson draw per direction for a
micro-step of length `dt`. -/
def TrafficGenerator.generate (g : TrafficGenerator) (dt : ℚ) (pFuel : ℕ) (rng : Rng) :
    Option ((Dir → ℕ) × Rng) :=
  genDirs g dt pFuel dirList (fun _ => 0) rng

/-- Add the generated arrival counts to the lanes, each new vehicle stamped
with the current micro-time `tt`, in the dict's direction order. -/
def addArrivals (i : Intersection) (arr : Dir → ℕ) (tt : ℚ) : Intersection :=
  dirList.foldl
    (fun acc d =>
      (List.range (arr d)).foldl (fun acc2 _ => acc2.add_vehicle d ⟨tt, none⟩) acc)
    i

/-- The inner `while tt < t + dur` arrival loop of `Simulation.run`:
sample arrivals every `dt` of simulated time across the whole phase. -/
def arrivalLoop (g : TrafficGenerator) (dt : ℚ) (pFuel : ℕ) (tEnd : ℚ) :
    ℕ → ℚ → Intersection → Rng → Option (Intersection × Rng)
  | 0, tt, i, rng => if tt < tEnd then none else some (i, rng)
  | aFuel + 1, tt, i, rng =>
    if tt < tEnd then
      match g.generate dt pFuel rng with
      | none => none
      | some (arr, rng') => arrivalLoop g dt pFuel tEnd aFuel (tt + dt) (addArrivals i arr tt) rng'
    else some (i, rng)

/-- Sum of the four queue lengths, as in `sum(queue_lengths().values())`. -/
def sumQueues (i : Intersection) : ℕ :=
  (dirList.map fun d => i.queue_lengths d).sum

/-- The mutable state of one `Simulation.run` invocation. -/
structure RunState where
  t : ℚ
  departed : List Vehicle
  total_r : ℚ
  inter : Intersection
  ctrl : QLearning
  rng : Rng

/-- The `while t < max_t` decision loop of `Simulation.run`:
observe, choose, generate arrivals across the phase, serve, reward,
optionally learn, then advance `t` by the full duration. -/
def runLoop (g : TrafficGenerator) (sensor : Sensor) (dt maxT : ℚ) (train : Bool)
    (pFuel aFuel : ℕ) : ℕ → RunState → Option RunState
  | 0, st => if st.t < maxT then none else some st
  | oFuel + 1, st =>
    if st.t < maxT then
      let s := sensor.read st.inter
      let ar := st.ctrl.choose s st.rng
      let pd := st.ctrl.actions.getD ar.1 (Phase.NS, 0)
      match arrivalLoop g dt pFuel (st.t + pd.2) aFuel st.t st.inter ar.2 with
      | none => none
      | some ir =>
        let li := ir.1.serve pd.1 pd.2 (st.t + pd.2)
        let reward : ℚ := (li.1.length : ℚ) * 10 - (sumQueues li.2 : ℚ) * 2
        let ns := sensor.read li.2
        let ctrl2 := if train then st.ctrl.update s ar.1 reward ns else st.ctrl
        runLoop g sensor dt maxT train pFuel aFuel oFuel
          ⟨st.t + pd.2, st.departed ++ li.1, st.total_r + reward, li.2, ctrl2, ir.2⟩
    else some st

/-- The record returned by `Simulation.run`. -/
structure SimResult where
  departed : ℕ
  avg_wait : ℚ
  reward : ℚ
deriving DecidableEq

/-- The result record computed on loop exit: `departed` count, `avg_wait`
(`0` when nothing departed, else the mean wait), and the reward total. -/
def mkResult (st : RunState) : SimResult :=
  { departed := st.departed.length
    avg_wait :=
      if st.departed.isEmpty then 0
      else (st.departed.map fun v => v.depart_time.getD 0 - v.arrival_time).sum /
        (st.departed.length : ℚ)
    reward := st.total_r }

/-- The state at the top of `Simulation.run`: `t = 0`, nothing departed. -/
def initState (inter : Intersection) (ctrl : QLearning) (rng : Rng) : RunState :=
  ⟨0, [], 0, inter, ctrl, rng⟩

/-- `Simulation.run`: the full decision loop followed by the result record. -/
def Simulation.run (g : TrafficGenerator) (sensor : Sensor) (dt : ℚ)
    (inter : Intersection) (ctrl : QLearning) (rng : Rng) (maxT : ℚ) (train : Bool)
    (pFuel aFuel oFuel : ℕ) : Option SimResult :=
  (runLoop g sensor dt maxT train pFuel aFuel oFuel (initState inter ctrl rng)).map mkResult

/-- An operation of a client interleaving `add_vehicle` and
`remove_vehicle` calls on one lane (for the FIFO invariant). -/
inductive LaneOp
  | add (v : Vehicle)
  | removeOne (t : ℚ)

/-- Run a sequence of lane operations, recording for each removal the time
argument and the returned vehicle (`none` on an empty lane). -/
def runOps : List LaneOp → Lane → List (ℚ × Option Vehicle) × Lane
  | [], l => ([], l)
  | .add v :: rest, l => runOps rest (l.add_vehicle v)
  | .removeOne t :: rest, l =>
    let (r, l') := l.remove_vehicle t
    let (rs, lf) := runOps rest l'
    ((t, r) :: rs, lf)

/-- The vehicles added by a sequence of lane operations, in order. -/
def addsOf : List LaneOp → List Vehicle
  | [] => []
  | .add v :: rest => v :: addsOf rest
  | .removeOne _ :: rest => addsOf rest

/-- Modelled from the spec: the arithmetic mean of a list of numbers, `0`
for the empty list (used to state the `avg_wait` claim against the code). -/
def arithMean (l : List ℚ) : ℚ :=
  if l = [] then 0 else l.sum / (l.length : ℚ)

/-- Modelled from the spec: "the index of the first bin edge ≥ value; if
value exceeds every edge, `len(edges)`" (used to state the discretization
claim against the code; `List.findIdx` returns the length on no match). -/
def firstEdgeGE (edges : List ℚ) (v : ℚ) : ℕ :=
  edges.findIdx fun b => v ≤ b

/-- The spec's service scenario: N queue of length 5, S queue of length 1,
service rate 1. -/
def scenarioInter : Intersection :=
  { lanes := fun d =>
      match d with
      | .N => ⟨[⟨0, none⟩, ⟨1, none⟩, ⟨2, none⟩, ⟨3, none⟩, ⟨4, none⟩]⟩
      | .S => ⟨[⟨10, none⟩]⟩
      | _ => ⟨[]⟩
    service_rate := 1 }

/-- Erase the departure stamp of a vehicle (to compare a removed vehicle
with the vehicle that was added). -/
def clearDepart (v : Vehicle) : Vehicle :=
  { v with depart_time := none }

/-! ## Helper lemmas -/

theorem discGo_eq_findIdx (v : ℚ) :
    ∀ (bs : List ℚ) (i : ℕ), discGo v bs i = i + bs.findIdx (fun b => v ≤ b) := by
  intro bs
  induction bs with
  | nil => intro i; simp [discGo, List.findIdx_nil]
  | cons b bs ih =>
    intro i
    by_cases h : v ≤ b
    · simp [discGo, h, List.findIdx_cons]
    · simp only [discGo, h, if_false, List.findIdx_cons, decide_eq_true_eq]
      rw [ih]
      simp [h]
      omega

theorem serveBest_eq_or (i : Intersection) (d1 d2 : Dir) :
    serveBest i d1 d2 = d1 ∨ serveBest i d1 d2 = d2 := by
  unfold serveBest
  split
  · exact Or.inr rfl
  · exact Or.inl rfl

theorem serveLoop_length_le (d1 d2 : Dir) (t : ℚ) :
    ∀ (n : ℕ) (i : Intersection), ((serveLoop d1 d2 t n i).1).length ≤ n := by
  intro n
  induction n with
  | zero => intro i; simp [serveLoop]
  | succ n ih =>
    intro i
    simp only [serveLoop]
    by_cases hb : (i.lanes (serveBest i d1 d2)).qlen = 0
    · simp [hb]
    · rcases hq : (i.lanes (serveBest i d1 d2)).queue with _ | ⟨v, rest⟩
      · exact absurd (by simp [Lane.qlen, hq]) hb
      · simp only [hb, if_false, Lane.remove_vehicle, hq]
        simpa using ih _

theorem serveLoop_length_le_sum (d1 d2 : Dir) (hne : d1 ≠ d2) (t : ℚ) :
    ∀ (n : ℕ) (i : Intersection),
      ((serveLoop d1 d2 t n i).1).length ≤ (i.lanes d1).qlen + (i.lanes d2).qlen := by
  intro n
  induction n with
  | zero => intro i; simp [serveLoop]
  | succ n ih =>
    intro i
    simp only [serveLoop]
    by_cases hb : (i.lanes (serveBest i d1 d2)).qlen = 0
    · simp [hb]
    · rcases hq : (i.lanes (serveBest i d1 d2)).queue with _ | ⟨v, rest⟩
      · exact absurd (by simp [Lane.qlen, hq]) hb
      · simp only [hb, if_false, Lane.remove_vehicle, hq, Option.toList_some,
          List.singleton_append, List.length_cons]
        rcases serveBest_eq_or i d1 d2 with hbest | hbest
        · rw [hbest] at hq ⊢
          have key := ih { i with lanes := fun d => if d = d1 then (⟨rest⟩ : Lane) else i.lanes d }
          simp only [Lane.qlen] at key ⊢
          simp [Ne.symm hne] at key
          have hq1 : (i.lanes d1).queue.length = rest.length + 1 := by simp [hq]
          omega
        · rw [hbest] at hq ⊢
          have key := ih { i with lanes := fun d => if d = d2 then (⟨rest⟩ : Lane) else i.lanes d }
          simp only [Lane.qlen] at key ⊢
          simp [hne] at key
          have hq1 : (i.lanes d2).queue.length = rest.length + 1 := by simp [hq]
          omega

theorem serveLoop_frame (d1 d2 : Dir) (t : ℚ) :
    ∀ (n : ℕ) (i : Intersection) (d : Dir), d ≠ d1 → d ≠ d2 →
      ((serveLoop d1 d2 t n i).2).lanes d = i.lanes d := by
  intro n
  induction n with
  | zero => intro i d _ _; simp [serveLoop]
  | succ n ih =>
    intro i d hd1 hd2
    simp only [serveLoop]
    by_cases hb : (i.lanes (serveBest i d1 d2)).qlen = 0
    · simp [hb]
    · rcases hq : (i.lanes (serveBest i d1 d2)).queue with _ | ⟨v, rest⟩
      · exact absurd (by simp [Lane.qlen, hq]) hb
      · simp only [hb, if_false, Lane.remove_vehicle, hq]
        have hdbest : d ≠ serveBest i d1 d2 := by
          rcases serveBest_eq_or i d1 d2 with h | h <;> rw [h] <;> assumption
        rw [ih _ d hd1 hd2]
        simp [hdbest]

theorem serveLoop_stamped (d1 d2 : Dir) (t : ℚ) :
    ∀ (n : ℕ) (i : Intersection) (v : Vehicle),
      v ∈ (serveLoop d1 d2 t n i).1 → v.depart_time = some t := by
  intro n
  induction n with
  | zero => intro i v hv; simp [serveLoop] at hv
  | succ n ih =>
    intro i v hv
    simp only [serveLoop] at hv
    by_cases hb : (i.lanes (serveBest i d1 d2)).qlen = 0
    · simp [hb] at hv
    · rcases hq : (i.lanes (serveBest i d1 d2)).queue with _ | ⟨w, rest⟩
      · exact absurd (by simp [Lane.qlen, hq]) hb
      · simp only [hb, if_false, Lane.remove_vehicle, hq, Option.toList_some,
          List.singleton_append, List.mem_cons] at hv
        rcases hv with hv | hv
        · rw [hv]
        · exact ih _ v hv

/-! ## Claim theorems -/

/-- C1: every `serve(phase, duration, t)` call returns at most
`floor(service_rate * duration)` vehicles, and at most the sum of the two
active-phase queue lengths at call time. -/
theorem serve_capacity_bound :
    ∀ (i : Intersection) (phase : Phase) (dur t : ℚ),
      0 ≤ i.service_rate * dur →
      (((i.serve phase dur t).1.length : ℤ) ≤ ⌊i.service_rate * dur⌋ ∧
        (i.serve phase dur t).1.length ≤
          (i.lanes (activeDirs phase).1).qlen + (i.lanes (activeDirs phase).2).qlen) := by
  intro i phase dur t h
  have hfloor0 : 0 ≤ ⌊i.service_rate * dur⌋ := Int.floor_nonneg.mpr h
  have hpy : pyInt (i.service_rate * dur) = ⌊i.service_rate * dur⌋ := by
    unfold pyInt
    rw [if_neg (not_lt.mpr h)]
  constructor
  · have hlen := serveLoop_length_le (activeDirs phase).1 (activeDirs phase).2 t
      ((pyInt (i.service_rate * dur)).toNat) i
    simp only [Intersection.serve]
    calc ((serveLoop (activeDirs phase).1 (activeDirs phase).2 t
          ((pyInt (i.service_rate * dur)).toNat) i).1.length : ℤ)
        ≤ (((pyInt (i.service_rate * dur)).toNat : ℕ) : ℤ) := by exact_mod_cast hlen
      _ = pyInt (i.service_rate * dur) := Int.toNat_of_nonneg (hpy ▸ hfloor0)
      _ = ⌊i.service_rate * dur⌋ := hpy
  · have hne : (activeDirs phase).1 ≠ (activeDirs phase).2 := by
      cases phase <;> decide
    simp only [Intersection.serve]
    exact serveLoop_length_le_sum _ _ hne t _ i

/-- Witness for C1 at the concrete scenario intersection. -/
theorem serve_capacity_bound_witness :
    ((scenarioInter.serve .NS 3 7).1.length : ℤ) ≤ ⌊scenarioInter.service_rate * 3⌋ ∧
      (scenarioInter.serve .NS 3 7).1.length ≤
        (scenarioInter.lanes (activeDirs .NS).1).qlen +
          (scenarioInter.lanes (activeDirs .NS).2).qlen :=
  serve_capacity_bound scenarioInter .NS 3 7 (by norm_num [scenarioInter])

/-- C2 counterexample: against the claimed values, `discretize(3)` is `1`
(not `0`) and `discretize(4)` is `2` (not `1`) for the default bins. -/
theorem disc_spec_counterexample :
    ¬ (defaultSensor.disc 3 = 0 ∧ defaultSensor.disc 4 = 1) := by
  decide

/-- C2 (amended): `disc(value)` returns the index of the first bin edge
`≥ value` (`len(edges)` when value exceeds every edge); for the default
bins `(0,3,6,10,20)`: `disc 0 = 0`, `disc 3 = 1`, `disc 4 = 2`,
`disc 20 = 4`, `disc 21 = 5`. -/
theorem disc_first_edge_ge :
    (∀ (s : Sensor) (v : ℚ), s.disc v = firstEdgeGE s.bins v) ∧
    defaultSensor.disc 0 = 0 ∧ defaultSensor.disc 3 = 1 ∧ defaultSensor.disc 4 = 2 ∧
    defaultSensor.disc 20 = 4 ∧ defaultSensor.disc 21 = 5 := by
  refine ⟨fun s v => ?_, by decide, by decide, by decide, by decide, by decide⟩
  unfold Sensor.disc firstEdgeGE
  simpa using discGo_eq_findIdx v s.bins 0

/-- C5: `serve` always picks the active direction with the strictly
greatest queue length, ties broken by the first direction in canonical
order; it stops as soon as the chosen lane is empty; and on the concrete
scenario (N length 5, S length 1, rate 1, duration 3) all three served
vehicles come from N. -/
theorem serve_longest_queue_first :
    (∀ (i : Intersection) (d1 d2 : Dir),
        (i.lanes d2).qlen ≤ (i.lanes d1).qlen → serveBest i d1 d2 = d1) ∧
    (∀ (i : Intersection) (d1 d2 : Dir),
        (i.lanes d1).qlen < (i.lanes d2).qlen → serveBest i d1 d2 = d2) ∧
    (∀ (n : ℕ) (d1 d2 : Dir) (t : ℚ) (i : Intersection),
        (i.lanes (serveBest i d1 d2)).qlen = 0 → serveLoop d1 d2 t n i = ([], i)) ∧
    ((scenarioInter.serve .NS 3 7).1 = [⟨0, some 7⟩, ⟨1, some 7⟩, ⟨2, some 7⟩] ∧
      ((scenarioInter.serve .NS 3 7).2.lanes .N).queue = [⟨3, none⟩, ⟨4, none⟩] ∧
      ((scenarioInter.serve .NS 3 7).2.lanes .S).queue = [⟨10, none⟩]) := by
  have hcap : (pyInt (scenarioInter.service_rate * 3)).toNat = 3 := by
    norm_num [pyInt, scenarioInter]; rfl
  refine ⟨?_, ?_, ?_, ?_, ?_, ?_⟩
  · intro i d1 d2 hle
    unfold serveBest
    rw [if_neg (not_lt.mpr hle)]
  · intro i d1 d2 hlt
    unfold serveBest
    rw [if_pos hlt]
  · intro n d1 d2 t i h0
    cases n with
    | zero => simp [serveLoop]
    | succ n => simp [serveLoop, h0]
  · simp only [Intersection.serve, activeDirs]
    rw [hcap]
    decide
  · simp only [Intersection.serve, activeDirs]
    rw [hcap]
    decide
  · simp only [Intersection.serve, activeDirs]
    rw [hcap]
    decide

/-- Witness for C5: the tie-break, strict-max and early-stop parts applied
at concrete inputs. -/
theorem serve_longest_queue_first_witness :
    serveBest scenarioInter .N .S = .N ∧
    serveBest scenarioInter .S .N = .N ∧
    serveLoop .E .W 7 3 scenarioInter = ([], scenarioInter) :=
  ⟨serve_longest_queue_first.1 scenarioInter .N .S (by decide),
    serve_longest_queue_first.2.1 scenarioInter .S .N (by decide),
    serve_longest_queue_first.2.2.1 3 .E .W 7 scenarioInter (by decide)⟩

/-- C10: `serve` leaves the two inactive-direction lanes unchanged:
phase `NS` preserves the E and W lanes, phase `EW` preserves N and S. -/
theorem serve_inactive_frame :
    ∀ (i : Intersection) (dur t : ℚ),
      ((i.serve .NS dur t).2.lanes .E = i.lanes .E ∧
        (i.serve .NS dur t).2.lanes .W = i.lanes .W) ∧
      ((i.serve .EW dur t).2.lanes .N = i.lanes .N ∧
        (i.serve .EW dur t).2.lanes .S = i.lanes .S) := by
  refine fun i dur t => ⟨⟨?_, ?_⟩, ?_, ?_⟩ <;>
    simp only [Intersection.serve, activeDirs] <;>
    exact serveLoop_frame _ _ _ _ _ _ (by decide) (by decide)

theorem runOps_fifo_aux :
    ∀ (ops : List LaneOp) (l : Lane),
      (∀ v ∈ l.queue, v.depart_time = none) →
      (∀ v ∈ addsOf ops, v.depart_time = none) →
      ((runOps ops l).1.filterMap Prod.snd).map clearDepart ++ (runOps ops l).2.queue =
        l.queue ++ addsOf ops := by
  intro ops
  induction ops with
  | nil => intro l _ _; simp [runOps, addsOf]
  | cons op rest ih =>
    intro l hl hadds
    cases op with
    | add v =>
      simp only [runOps, addsOf] at hadds ⊢
      rw [ih (l.add_vehicle v) ?hl2 ?hadds2]
      · simp [Lane.add_vehicle]
      case hl2 =>
        intro w hw
        simp only [Lane.add_vehicle, List.mem_append, List.mem_singleton] at hw
        rcases hw with hw | hw
        · exact hl w hw
        · rw [hw]; exact hadds v (List.mem_cons_self v _)
      case hadds2 =>
        intro w hw
        exact hadds w (List.mem_cons_of_mem _ hw)
    | removeOne t =>
      rcases hq : l.queue with _ | ⟨w, l2⟩
      · simp only [runOps, Lane.remove_vehicle, hq, addsOf] at hadds ⊢
        simp only [List.filterMap_cons_none]
        rw [ih l (by simp [hq]) hadds]
        simp [hq]
      · obtain ⟨wa, wd⟩ := w
        simp only [runOps, Lane.remove_vehicle, hq, addsOf] at hadds ⊢
        have hw0 : wd = none := hl ⟨wa, wd⟩ (by simp [hq])
        subst hw0
        have key := ih ⟨l2⟩ (fun u hu => hl u (by simp [hq]; exact Or.inr hu)) hadds
        simp [clearDepart, key]

theorem runOps_stamped :
    ∀ (ops : List LaneOp) (l : Lane) (p : ℚ × Option Vehicle),
      p ∈ (runOps ops l).1 → ∀ v, p.2 = some v → v.depart_time = some p.1 := by
  intro ops
  induction ops with
  | nil => intro l p hp; simp [runOps] at hp
  | cons op rest ih =>
    intro l p hp
    cases op with
    | add v => exact ih _ p hp
    | removeOne t =>
      rcases hq : l.queue with _ | ⟨w, l2⟩
      · simp only [runOps, Lane.remove_vehicle, hq, List.mem_cons] at hp
        rcases hp with hp | hp
        · intro v hv; rw [hp] at hv; simp at hv
        · exact ih _ p hp
      · simp only [runOps, Lane.remove_vehicle, hq, List.mem_cons] at hp
        rcases hp with hp | hp
        · intro v hv
          rw [hp] at hv
          simp only at hv
          rw [hp]
          simp only
          rw [← Option.some_inj.mp hv]
        · exact ih _ p hp

/-- C6: over any sequence of add/remove operations on a lane that starts
empty, the removed vehicles (departure stamp erased) followed by the
remaining queue are exactly the added vehicles in order — FIFO with no
reordering and no skipping — and every removed vehicle is stamped with the
time argument of the remove call that returned it. -/
theorem lane_fifo :
    ∀ (ops : List LaneOp),
      (∀ v ∈ addsOf ops, v.depart_time = none) →
      (((runOps ops ⟨[]⟩).1.filterMap Prod.snd).map clearDepart ++
          (runOps ops ⟨[]⟩).2.queue = addsOf ops ∧
        ∀ p ∈ (runOps ops ⟨[]⟩).1, ∀ v, p.2 = some v → v.depart_time = some p.1) := by
  intro ops hadds
  refine ⟨?_, fun p hp => runOps_stamped ops ⟨[]⟩ p hp⟩
  have := runOps_fifo_aux ops ⟨[]⟩ (by simp) hadds
  simpa using this

/-- Witness for C6 on a concrete operation sequence: two adds, one
removal, one more add, three removals (the last on an empty lane). -/
theorem lane_fifo_witness :
    (((runOps [.add ⟨1, none⟩, .add ⟨2, none⟩, .removeOne 5, .add ⟨3, none⟩,
          .removeOne 6, .removeOne 7, .removeOne 8] ⟨[]⟩).1.filterMap Prod.snd).map
        clearDepart ++
        (runOps [.add ⟨1, none⟩, .add ⟨2, none⟩, .removeOne 5, .add ⟨3, none⟩,
          .removeOne 6, .removeOne 7, .removeOne 8] ⟨[]⟩).2.queue =
        addsOf [.add ⟨1, none⟩, .add ⟨2, none⟩, .removeOne 5, .add ⟨3, none⟩,
          .removeOne 6, .removeOne 7, .removeOne 8] ∧
      ∀ p ∈ (runOps [.add ⟨1, none⟩, .add ⟨2, none⟩, .removeOne 5, .add ⟨3, none⟩,
          .removeOne 6, .removeOne 7, .removeOne 8] ⟨[]⟩).1,
        ∀ v, p.2 = some v → v.depart_time = some p.1) :=
  lane_fifo [.add ⟨1, none⟩, .add ⟨2, none⟩, .removeOne 5, .add ⟨3, none⟩,
    .removeOne 6, .removeOne 7, .removeOne 8] (by decide)

theorem le_foldl_max : ∀ (xs : List ℚ) (a : ℚ), a ≤ xs.foldl max a := by
  intro xs
  induction xs with
  | nil => intro a; simp
  | cons x xs ih =>
    intro a
    calc a ≤ max a x := le_max_left a x
      _ ≤ (x :: xs).foldl max a := by simpa using ih (max a x)

theorem mem_le_foldl_max : ∀ (xs : List ℚ) (a x : ℚ), x ∈ xs → x ≤ xs.foldl max a := by
  intro xs
  induction xs with
  | nil => intro a x hx; simp at hx
  | cons y ys ih =>
    intro a x hx
    rcases List.mem_cons.mp hx with hx | hx
    · subst hx
      calc x ≤ max a x := le_max_right a x
        _ ≤ (x :: ys).foldl max a := by simpa using le_foldl_max ys (max a x)
    · simpa using ih (max a y) x hx

theorem foldl_max_cases : ∀ (xs : List ℚ) (a : ℚ), xs.foldl max a = a ∨ xs.foldl max a ∈ xs := by
  intro xs
  induction xs with
  | nil => intro a; simp
  | cons y ys ih =>
    intro a
    rcases ih (max a y) with h | h
    · rcases max_choice a y with hm | hm
      · left; simpa [hm] using h
      · right
        simp only [List.foldl_cons]
        rw [h, hm]
        exact List.mem_cons_self y ys
    · right
      simp only [List.foldl_cons]
      exact List.mem_cons_of_mem y h

theorem pyMaxList_ub : ∀ (l : List ℚ) (x : ℚ), x ∈ l → x ≤ pyMaxList l := by
  intro l x hx
  cases l with
  | nil => simp at hx
  | cons y ys =>
    rcases List.mem_cons.mp hx with h | h
    · subst h
      exact le_foldl_max ys x
    · exact mem_le_foldl_max ys y x h

theorem pyMaxList_mem : ∀ (l : List ℚ), l ≠ [] → pyMaxList l ∈ l := by
  intro l hl
  cases l with
  | nil => exact absurd rfl hl
  | cons y ys =>
    rcases foldl_max_cases ys y with h | h
    · simp [pyMaxList, h]
    · simp [pyMaxList]
      right
      exact h

theorem foldl_min_le : ∀ (xs : List ℚ) (a : ℚ), xs.foldl min a ≤ a := by
  intro xs
  induction xs with
  | nil => intro a; simp
  | cons x xs ih =>
    intro a
    calc (x :: xs).foldl min a = xs.foldl min (min a x) := by simp
      _ ≤ min a x := ih (min a x)
      _ ≤ a := min_le_left a x

theorem foldl_min_le_mem : ∀ (xs : List ℚ) (a x : ℚ), x ∈ xs → xs.foldl min a ≤ x := by
  intro xs
  induction xs with
  | nil => intro a x hx; simp at hx
  | cons y ys ih =>
    intro a x hx
    rcases List.mem_cons.mp hx with hx | hx
    · subst hx
      calc (x :: ys).foldl min a = ys.foldl min (min a x) := by simp
        _ ≤ min a x := foldl_min_le ys (min a x)
        _ ≤ x := min_le_right a x
    · simpa using ih (min a y) x hx

theorem foldl_min_cases : ∀ (xs : List ℚ) (a : ℚ), xs.foldl min a = a ∨ xs.foldl min a ∈ xs := by
  intro xs
  induction xs with
  | nil => intro a; simp
  | cons y ys ih =>
    intro a
    rcases ih (min a y) with h | h
    · rcases min_choice a y with hm | hm
      · left; simpa [hm] using h
      · right
        simp only [List.foldl_cons]
        rw [h, hm]
        exact List.mem_cons_self y ys
    · right
      simp only [List.foldl_cons]
      exact List.mem_cons_of_mem y h

theorem pyMinList_lb : ∀ (l : List ℚ) (x : ℚ), x ∈ l → pyMinList l ≤ x := by
  intro l x hx
  cases l with
  | nil => simp at hx
  | cons y ys =>
    rcases List.mem_cons.mp hx with h | h
    · subst h
      exact foldl_min_le ys x
    · exact foldl_min_le_mem ys y x h

theorem pyMinList_mem : ∀ (l : List ℚ), l ≠ [] → pyMinList l ∈ l := by
  intro l hl
  cases l with
  | nil => exact absurd rfl hl
  | cons y ys =>
    rcases foldl_min_cases ys y with h | h
    · simp [pyMinList, h]
    · simp [pyMinList]
      right
      exact h

/-- C3: `update(s, a, r, ns)` overwrites the single entry `(s, a)` with
`Q(s,a) + α * (r + γ * max Q(ns, ·) − Q(s,a))` and leaves the value read
for every other `(state, action)` pair numerically unchanged. -/
theorem update_single_entry :
    ∀ (c : QLearning) (s : RLState) (a : ℕ) (r : ℚ) (ns : RLState),
      0 < c.actions.length →
      ∃ m, (∀ na < c.actions.length, c.q (ns, na) ≤ m) ∧
        (∃ na < c.actions.length, c.q (ns, na) = m) ∧
        (c.update s a r ns).q (s, a) = c.q (s, a) + c.α * (r + c.γ * m - c.q (s, a)) ∧
        ∀ p, p ≠ (s, a) → (c.update s a r ns).q p = c.q p := by
  intro c s a r ns hn
  refine ⟨pyMaxList ((List.range c.actions.length).map fun na => c.q (ns, na)), ?_, ?_, ?_, ?_⟩
  · intro na hna
    exact pyMaxList_ub _ _ (List.mem_map_of_mem _ (List.mem_range.mpr hna))
  · have hne : ((List.range c.actions.length).map fun na => c.q (ns, na)) ≠ [] := by
      simp only [ne_eq, List.map_eq_nil_iff, List.range_eq_nil]
      omega
    rcases List.mem_map.mp (pyMaxList_mem _ hne) with ⟨na, hna, he⟩
    exact ⟨na, List.mem_range.mp hna, he⟩
  · simp [QLearning.update]
  · intro p hp
    simp [QLearning.update, hp]

/-- Witness for C3 on a concrete controller. -/
theorem update_single_entry_witness :
    ∃ m, (∀ na < (QLearning.mk [(Phase.NS, 5)] 1 1 0 fun _ => 0).actions.length,
        (QLearning.mk [(Phase.NS, 5)] 1 1 0 fun _ => 0).q ((1, 1, 0), na) ≤ m) ∧
      (∃ na < (QLearning.mk [(Phase.NS, 5)] 1 1 0 fun _ => 0).actions.length,
        (QLearning.mk [(Phase.NS, 5)] 1 1 0 fun _ => 0).q ((1, 1, 0), na) = m) ∧
      ((QLearning.mk [(Phase.NS, 5)] 1 1 0 fun _ => 0).update (0, 0, 0) 0 4 (1, 1, 0)).q
          ((0, 0, 0), 0) =
        (QLearning.mk [(Phase.NS, 5)] 1 1 0 fun _ => 0).q ((0, 0, 0), 0) +
          (QLearning.mk [(Phase.NS, 5)] 1 1 0 fun _ => 0).α *
            (4 + (QLearning.mk [(Phase.NS, 5)] 1 1 0 fun _ => 0).γ * m -
              (QLearning.mk [(Phase.NS, 5)] 1 1 0 fun _ => 0).q ((0, 0, 0), 0)) ∧
      ∀ p, p ≠ ((0, 0, 0), 0) →
        ((QLearning.mk [(Phase.NS, 5)] 1 1 0 fun _ => 0).update (0, 0, 0) 0 4 (1, 1, 0)).q p =
          (QLearning.mk [(Phase.NS, 5)] 1 1 0 fun _ => 0).q p :=
  update_single_entry (QLearning.mk [(Phase.NS, 5)] 1 1 0 fun _ => 0) (0, 0, 0) 0 4 (1, 1, 0)
    (by decide)

theorem argmaxGo_spec (f : ℕ → ℚ) :
    ∀ (steps b i : ℕ), b < i → (∀ j < i, f j ≤ f b) → (∀ j < b, f j < f b) →
      (argmaxGo f b i steps < i + steps ∧
        (∀ j < i + steps, f j ≤ f (argmaxGo f b i steps)) ∧
        ∀ j < argmaxGo f b i steps, f j < f (argmaxGo f b i steps)) := by
  intro steps
  induction steps with
  | zero =>
    intro b i hbi hub hlt
    simp only [argmaxGo, Nat.add_zero]
    exact ⟨hbi, hub, hlt⟩
  | succ steps ih =>
    intro b i hbi hub hlt
    simp only [argmaxGo]
    by_cases hc : f b < f i
    · rw [if_pos hc]
      have key := ih i (i + 1) (by omega)
        (fun j hj => by
          rcases Nat.lt_succ_iff_lt_or_eq.mp hj with hj | hj
          · exact le_of_lt (lt_of_le_of_lt (hub j hj) hc)
          · rw [hj])
        (fun j hj => lt_of_le_of_lt (hub j hj) hc)
      have harith : i + 1 + steps = i + (steps + 1) := by omega
      rw [harith] at key
      exact key
    · rw [if_neg hc]
      have key := ih b (i + 1) (by omega)
        (fun j hj => by
          rcases Nat.lt_succ_iff_lt_or_eq.mp hj with hj | hj
          · exact hub j hj
          · rw [hj]; exact not_lt.mp hc)
        hlt
      have harith : i + 1 + steps = i + (steps + 1) := by omega
      rw [harith] at key
      exact key

theorem pyArgmax_spec (f : ℕ → ℚ) (n : ℕ) (hn : 0 < n) :
    pyArgmax f n < n ∧ (∀ j < n, f j ≤ f (pyArgmax f n)) ∧
      ∀ j < pyArgmax f n, f j < f (pyArgmax f n) := by
  cases n with
  | zero => omega
  | succ n =>
    have key := argmaxGo_spec f n 0 1 (by omega)
      (fun j hj => by
        have : j = 0 := by omega
        rw [this])
      (fun j hj => by omega)
    have harith : 1 + n = n + 1 := by omega
    rw [harith] at key
    simpa [pyArgmax] using key

/-- C4: `choose(s)` either explores — when the `random()` draw is below
`ε`, it returns the `randrange` draw over the whole action list, an index
in range — or exploits: it returns the least action index attaining the
maximum of `Q(s, ·)`; in either case only the draw cursor moves. -/
theorem choose_eps_greedy :
    ∀ (c : QLearning) (s : RLState) (rng : Rng),
      0 < c.actions.length →
      ((rng.stream rng.idx < c.ε →
          (c.choose s rng).1 = (Rng.randrange ⟨rng.stream, rng.idx + 1⟩ c.actions.length).1 ∧
            (c.choose s rng).1 < c.actions.length) ∧
        (¬ rng.stream rng.idx < c.ε →
          ((c.choose s rng).1 < c.actions.length ∧
            (∀ j < c.actions.length, c.q (s, j) ≤ c.q (s, (c.choose s rng).1)) ∧
            ∀ j < (c.choose s rng).1, c.q (s, j) < c.q (s, (c.choose s rng).1)))) := by
  intro c s rng hn
  constructor
  · intro hu
    refine ⟨by simp [QLearning.choose, Rng.next, if_pos hu], ?_⟩
    simp only [QLearning.choose, Rng.next, if_pos hu, Rng.randrange]
    exact Nat.mod_lt _ hn
  · intro hu
    simp only [QLearning.choose, Rng.next, if_neg hu]
    exact pyArgmax_spec (fun a => c.q (s, a)) c.actions.length hn

/-- Witness for C4: both branches at concrete controllers (exploration
with `ε = 1`, exploitation with `ε = 0`), both on an all-zero draw stream. -/
theorem choose_eps_greedy_witness :
    (((QLearning.mk [(Phase.NS, 5), (Phase.EW, 10)] 1 1 1 fun _ => 0).choose (0, 0, 0)
          ⟨fun _ => 0, 0⟩).1 < 2 ∧
      ((QLearning.mk [(Phase.NS, 5), (Phase.EW, 10)] 1 1 0 fun _ => 0).choose (0, 0, 0)
          ⟨fun _ => 0, 0⟩).1 < 2) := by
  constructor
  · exact ((choose_eps_greedy (QLearning.mk [(Phase.NS, 5), (Phase.EW, 10)] 1 1 1 fun _ => 0)
      (0, 0, 0) ⟨fun _ => 0, 0⟩ (by decide)).1 (by norm_num)).2
  · exact ((choose_eps_greedy (QLearning.mk [(Phase.NS, 5), (Phase.EW, 10)] 1 1 0 fun _ => 0)
      (0, 0, 0) ⟨fun _ => 0, 0⟩ (by decide)).2 (by norm_num)).1

theorem serve_stamped (i : Intersection) (phase : Phase) (dt t : ℚ) :
    ∀ v ∈ (i.serve phase dt t).1, v.depart_time = some t := by
  intro v hv
  simp only [Intersection.serve] at hv
  exact serveLoop_stamped _ _ _ _ _ v hv

theorem runLoop_departed_isSome (g : TrafficGenerator) (sensor : Sensor) (dt maxT : ℚ)
    (train : Bool) (pF aF : ℕ) :
    ∀ (oF : ℕ) (st st' : RunState),
      runLoop g sensor dt maxT train pF aF oF st = some st' →
      (∀ v ∈ st.departed, v.depart_time.isSome) →
      ∀ v ∈ st'.departed, v.depart_time.isSome := by
  intro oF
  induction oF with
  | zero =>
    intro st st' h hinv
    simp only [runLoop] at h
    split at h
    · exact absurd h (by simp)
    · rw [Option.some_inj.mp h] at hinv
      exact hinv
  | succ oF ih =>
    intro st st' h hinv
    simp only [runLoop] at h
    split at h
    · split at h
      · exact absurd h (by simp)
      · refine ih _ st' h ?_
        intro v hv
        rcases List.mem_append.mp hv with hv | hv
        · exact hinv v hv
        · rw [serve_stamped _ _ _ _ v hv]
          rfl
    · rw [Option.some_inj.mp h] at hinv
      exact hinv

/-- C7: the `avg_wait` field of the record returned by `Simulation.run` is
the arithmetic mean of `depart_time − arrival_time` over the vehicles
departed during the run, is exactly `0` when none departed, and every
departed vehicle carries a departure stamp. -/
theorem run_avg_wait :
    ∀ (g : TrafficGenerator) (sensor : Sensor) (dt maxT : ℚ) (train : Bool)
      (pF aF oF : ℕ) (inter : Intersection) (ctrl : QLearning) (rng : Rng) (st : RunState),
      runLoop g sensor dt maxT train pF aF oF (initState inter ctrl rng) = some st →
      (Simulation.run g sensor dt inter ctrl rng maxT train pF aF oF = some (mkResult st) ∧
        (mkResult st).avg_wait =
          arithMean (st.departed.map fun v => v.depart_time.getD 0 - v.arrival_time) ∧
        (st.departed = [] → (mkResult st).avg_wait = 0) ∧
        ∀ v ∈ st.departed, v.depart_time.isSome) := by
  intro g sensor dt maxT train pF aF oF inter ctrl rng st h
  refine ⟨?_, ?_, ?_, ?_⟩
  · simp [Simulation.run, h]
  · by_cases hd : st.departed = []
    · simp [mkResult, arithMean, hd]
    · simp only [mkResult, arithMean]
      rw [if_neg (by simpa [List.isEmpty_iff] using hd), if_neg (by simpa using hd)]
      simp
  · intro hd
    simp [mkResult, hd]
  · exact runLoop_departed_isSome g sensor dt maxT train pF aF oF _ st h
      (by simp [initState])

/-- Witness for C7 on a trivial configuration (`max_t = 0`): the loop
exits immediately, nothing departs, `avg_wait = 0`. -/
theorem run_avg_wait_witness :
    Simulation.run (TrafficGenerator.mk (fun _ => 0) fun _ => 1) defaultSensor 1
        (Intersection.mk (fun _ => ⟨[]⟩) 1) (QLearning.mk [(Phase.NS, 1)] 1 1 0 fun _ => 0)
        ⟨fun _ => 0, 0⟩ 0 false 1 1 1 =
      some (mkResult (initState (Intersection.mk (fun _ => ⟨[]⟩) 1)
        (QLearning.mk [(Phase.NS, 1)] 1 1 0 fun _ => 0) ⟨fun _ => 0, 0⟩)) ∧
      (mkResult (initState (Intersection.mk (fun _ => ⟨[]⟩) 1)
          (QLearning.mk [(Phase.NS, 1)] 1 1 0 fun _ => 0) ⟨fun _ => 0, 0⟩)).avg_wait =
        arithMean (((initState (Intersection.mk (fun _ => ⟨[]⟩) 1)
          (QLearning.mk [(Phase.NS, 1)] 1 1 0 fun _ => 0)
          ⟨fun _ => 0, 0⟩).departed).map fun v => v.depart_time.getD 0 - v.arrival_time) ∧
      ((initState (Intersection.mk (fun _ => ⟨[]⟩) 1)
          (QLearning.mk [(Phase.NS, 1)] 1 1 0 fun _ => 0) ⟨fun _ => 0, 0⟩).departed = [] →
        (mkResult (initState (Intersection.mk (fun _ => ⟨[]⟩) 1)
          (QLearning.mk [(Phase.NS, 1)] 1 1 0 fun _ => 0) ⟨fun _ => 0, 0⟩)).avg_wait = 0) ∧
      ∀ v ∈ (initState (Intersection.mk (fun _ => ⟨[]⟩) 1)
          (QLearning.mk [(Phase.NS, 1)] 1 1 0 fun _ => 0) ⟨fun _ => 0, 0⟩).departed,
        v.depart_time.isSome :=
  run_avg_wait (TrafficGenerator.mk (fun _ => 0) fun _ => 1) defaultSensor 1 0 false 1 1 1
    (Intersection.mk (fun _ => ⟨[]⟩) 1) (QLearning.mk [(Phase.NS, 1)] 1 1 0 fun _ => 0)
    ⟨fun _ => 0, 0⟩ _ rfl

/-- C9: all randomness is routed through the single draw stream, so two
`run` invocations over pointwise-identical configurations (rates, float
exp table, lanes, service rate, actions, hyperparameters, Q-table) and a
pointwise-identical seeded stream produce the identical result record and
the identical full final state — Q-table and per-vehicle timestamps
included. -/
theorem run_deterministic :
    ∀ (g1 g2 : TrafficGenerator) (sensor : Sensor) (dt maxT : ℚ) (train : Bool)
      (pF aF oF : ℕ) (i1 i2 : Intersection) (c1 c2 : QLearning) (f1 f2 : ℕ → ℚ) (idx : ℕ),
      (∀ d, g1.rates d = g2.rates d) → (∀ x, g1.fexp x = g2.fexp x) →
      (∀ d, i1.lanes d = i2.lanes d) → i1.service_rate = i2.service_rate →
      c1.actions = c2.actions → c1.α = c2.α → c1.γ = c2.γ → c1.ε = c2.ε →
      (∀ p, c1.q p = c2.q p) →
      (∀ n, f1 n = f2 n) →
      (Simulation.run g1 sensor dt i1 c1 ⟨f1, idx⟩ maxT train pF aF oF =
          Simulation.run g2 sensor dt i2 c2 ⟨f2, idx⟩ maxT train pF aF oF ∧
        runLoop g1 sensor dt maxT train pF aF oF (initState i1 c1 ⟨f1, idx⟩) =
          runLoop g2 sensor dt maxT train pF aF oF (initState i2 c2 ⟨f2, idx⟩)) := by
  intro g1 g2 sensor dt maxT train pF aF oF i1 i2 c1 c2 f1 f2 idx
  intro hr he hl hs ha hα hγ hε hq hf
  have hg : g1 = g2 := by
    cases g1
    cases g2
    simp only [TrafficGenerator.mk.injEq]
    exact ⟨funext hr, funext he⟩
  have hi : i1 = i2 := by
    cases i1
    cases i2
    simp only [Intersection.mk.injEq]
    exact ⟨funext hl, hs⟩
  have hc : c1 = c2 := by
    cases c1
    cases c2
    simp only [QLearning.mk.injEq]
    exact ⟨ha, hα, hγ, hε, funext hq⟩
  have hff : f1 = f2 := funext hf
  subst hg hi hc hff
  exact ⟨rfl, rfl⟩

/-- Witness for C9: two syntactically different but pointwise-equal
configurations produce identical runs. -/
theorem run_deterministic_witness :
    Simulation.run (TrafficGenerator.mk (fun _ => 1) fun _ => 1) defaultSensor 1
        (Intersection.mk (fun _ => ⟨[]⟩) 1) (QLearning.mk [(Phase.NS, 1)] 1 1 0 fun _ => 0)
        ⟨fun _ => 0, 0⟩ 0 true 1 1 1 =
      Simulation.run (TrafficGenerator.mk (fun _ => 1) fun x => 1 + 0 * x) defaultSensor 1
        (Intersection.mk (fun _ => ⟨[]⟩) 1) (QLearning.mk [(Phase.NS, 1)] 1 1 0 fun _ => 0)
        ⟨fun n => 0 * (n : ℚ), 0⟩ 0 true 1 1 1 ∧
      runLoop (TrafficGenerator.mk (fun _ => 1) fun _ => 1) defaultSensor 1 0 true 1 1 1
        (initState (Intersection.mk (fun _ => ⟨[]⟩) 1)
          (QLearning.mk [(Phase.NS, 1)] 1 1 0 fun _ => 0) ⟨fun _ => 0, 0⟩) =
      runLoop (TrafficGenerator.mk (fun _ => 1) fun x => 1 + 0 * x) defaultSensor 1 0 true 1 1 1
        (initState (Intersection.mk (fun _ => ⟨[]⟩) 1)
          (QLearning.mk [(Phase.NS, 1)] 1 1 0 fun _ => 0) ⟨fun n => 0 * (n : ℚ), 0⟩) :=
  run_deterministic (TrafficGenerator.mk (fun _ => 1) fun _ => 1)
    (TrafficGenerator.mk (fun _ => 1) fun x => 1 + 0 * x) defaultSensor 1 0 true 1 1 1
    (Intersection.mk (fun _ => ⟨[]⟩) 1) (Intersection.mk (fun _ => ⟨[]⟩) 1)
    (QLearning.mk [(Phase.NS, 1)] 1 1 0 fun _ => 0)
    (QLearning.mk [(Phase.NS, 1)] 1 1 0 fun _ => 0)
    (fun _ => 0) (fun n => 0 * (n : ℚ)) 0
    (fun d => rfl) (fun x => by ring) (fun d => rfl) rfl rfl rfl rfl rfl
    (fun p => rfl) (fun n => by ring)

theorem poissonLoop_isSome (L c : ℚ) (f : ℕ → ℚ) (hstr : ∀ j, 0 ≤ f j ∧ f j ≤ c)
    (hc1 : c ≤ 1) :
    ∀ (fuel : ℕ) (p : ℚ) (k idx : ℕ), 0 ≤ p → p * c ^ fuel ≤ L →
      ∃ kk idx2, poissonLoop L (fuel + 1) p k ⟨f, idx⟩ = some (kk, ⟨f, idx2⟩) := by
  intro fuel
  induction fuel with
  | zero =>
    intro p k idx hp hL
    simp only [pow_zero, mul_one] at hL
    have hcond : p * f idx ≤ L := by
      have h1 : p * f idx ≤ p * 1 :=
        mul_le_mul_of_nonneg_left (le_trans (hstr idx).2 hc1) hp
      rw [mul_one] at h1
      exact le_trans h1 hL
    simp only [poissonLoop, Rng.next]
    rw [if_pos hcond]
    exact ⟨k, idx + 1, rfl⟩
  | succ fuel ih =>
    intro p k idx hp hL
    simp only [poissonLoop, Rng.next]
    by_cases hcond : p * f idx ≤ L
    · rw [if_pos hcond]
      exact ⟨k, idx + 1, rfl⟩
    · rw [if_neg hcond]
      have hc0 : 0 ≤ c := le_trans (hstr 0).1 (hstr 0).2
      apply ih (p * f idx) (k + 1) (idx + 1) (mul_nonneg hp (hstr idx).1)
      have h1 : p * f idx ≤ p * c := mul_le_mul_of_nonneg_left (hstr idx).2 hp
      have h2 : p * f idx * c ^ fuel ≤ p * c * c ^ fuel :=
        mul_le_mul_of_nonneg_right h1 (pow_nonneg hc0 fuel)
      have h3 : p * c * c ^ fuel = p * c ^ (fuel + 1) := by ring
      rw [h3] at h2
      exact le_trans h2 hL

theorem genDirs_isSome (g : TrafficGenerator) (dt c : ℚ) (f : ℕ → ℚ)
    (hstr : ∀ j, 0 ≤ f j ∧ f j ≤ c) (hc1 : c ≤ 1) (m : ℕ)
    (hL : ∀ d, c ^ m ≤ g.fexp (-(g.rates d * dt))) :
    ∀ (ds : List Dir) (acc : Dir → ℕ) (idx : ℕ),
      ∃ arr idx2, genDirs g dt (m + 1) ds acc ⟨f, idx⟩ = some (arr, ⟨f, idx2⟩) := by
  intro ds
  induction ds with
  | nil => intro acc idx; exact ⟨acc, idx, rfl⟩
  | cons d ds ih =>
    intro acc idx
    obtain ⟨kk, idx2, hp⟩ := poissonLoop_isSome (g.fexp (-(g.rates d * dt))) c f hstr hc1 m
      1 0 idx (by norm_num) (by simpa using hL d)
    simp only [genDirs]
    rw [hp]
    exact ih _ idx2

theorem arrivalLoop_isSome (g : TrafficGenerator) (dt c : ℚ) (f : ℕ → ℚ)
    (hstr : ∀ j, 0 ≤ f j ∧ f j ≤ c) (hc1 : c ≤ 1) (m : ℕ)
    (hL : ∀ d, c ^ m ≤ g.fexp (-(g.rates d * dt))) (tEnd : ℚ) :
    ∀ (aF : ℕ) (tt : ℚ) (i : Intersection) (idx : ℕ),
      tEnd ≤ tt + (aF : ℚ) * dt →
      ∃ i2 idx2, arrivalLoop g dt (m + 1) tEnd aF tt i ⟨f, idx⟩ = some (i2, ⟨f, idx2⟩) := by
  intro aF
  induction aF with
  | zero =>
    intro tt i idx hend
    simp only [Nat.cast_zero, zero_mul, add_zero] at hend
    simp only [arrivalLoop]
    rw [if_neg (not_lt.mpr hend)]
    exact ⟨i, idx, rfl⟩
  | succ aF ih =>
    intro tt i idx hend
    simp only [arrivalLoop]
    by_cases hlt : tt < tEnd
    · rw [if_pos hlt]
      obtain ⟨arr, idx2, hgen⟩ := genDirs_isSome g dt c f hstr hc1 m hL dirList
        (fun _ => 0) idx
      simp only [TrafficGenerator.generate]
      rw [hgen]
      apply ih (tt + dt) _ idx2
      have hcast : tt + ((aF : ℚ) + 1) * dt = tt + dt + (aF : ℚ) * dt := by ring
      push_cast at hend
      linarith [hend]
    · rw [if_neg hlt]
      exact ⟨i, idx, rfl⟩

theorem choose_lt (cq : QLearning) (s : RLState) (rng : Rng)
    (hn : 0 < cq.actions.length) : (cq.choose s rng).1 < cq.actions.length := by
  simp only [QLearning.choose, Rng.next, Rng.randrange]
  by_cases h : rng.stream rng.idx < cq.ε
  · rw [if_pos h]
    exact Nat.mod_lt _ hn
  · rw [if_neg h]
    exact (pyArgmax_spec _ _ hn).1

theorem choose_rng (cq : QLearning) (s : RLState) (f : ℕ → ℚ) (idx : ℕ) :
    ∃ idx2, (cq.choose s ⟨f, idx⟩).2 = ⟨f, idx2⟩ := by
  simp only [QLearning.choose, Rng.next, Rng.randrange]
  by_cases h : f idx < cq.ε
  · rw [if_pos h]
    exact ⟨idx + 1 + 1, rfl⟩
  · rw [if_neg h]
    exact ⟨idx + 1, rfl⟩

theorem update_preserves_actions (cq : QLearning) (s : RLState) (a : ℕ) (r : ℚ)
    (ns : RLState) : (cq.update s a r ns).actions = cq.actions := rfl

theorem runLoop_isSome (g : TrafficGenerator) (sensor : Sensor) (dt maxT : ℚ)
    (train : Bool) (c : ℚ) (f : ℕ → ℚ) (hstr : ∀ j, 0 ≤ f j ∧ f j ≤ c) (hc1 : c ≤ 1)
    (m : ℕ) (hL : ∀ d, c ^ m ≤ g.fexp (-(g.rates d * dt)))
    (acts : List (Phase × ℚ)) (hacts : acts ≠ [])
    (δ dmax : ℚ) (hδle : ∀ pd ∈ acts, δ ≤ pd.2) (hdmax : ∀ pd ∈ acts, pd.2 ≤ dmax)
    (aF : ℕ) (haF : dmax ≤ (aF : ℚ) * dt) :
    ∀ (k : ℕ) (st : RunState) (idx : ℕ),
      st.rng = ⟨f, idx⟩ → st.ctrl.actions = acts →
      maxT ≤ st.t + (k : ℚ) * δ → st.t < maxT + dmax →
      ∃ st2, runLoop g sensor dt maxT train (m + 1) aF k st = some st2 ∧
        maxT ≤ st2.t ∧ st2.t < maxT + dmax := by
  intro k
  induction k with
  | zero =>
    intro st idx hrng hctrl hk hbound
    simp only [Nat.cast_zero, zero_mul, add_zero] at hk
    simp only [runLoop]
    rw [if_neg (not_lt.mpr hk)]
    exact ⟨st, rfl, hk, hbound⟩
  | succ k ih =>
    intro st idx hrng hctrl hk hbound
    by_cases hlt : st.t < maxT
    · simp only [runLoop]
      rw [if_pos hlt]
      obtain ⟨idx2, har⟩ := choose_rng st.ctrl (sensor.read st.inter) f idx
      have hn : 0 < st.ctrl.actions.length := by
        rw [hctrl]
        exact List.length_pos.mpr hacts
      have halt := choose_lt st.ctrl (sensor.read st.inter) st.rng hn
      have hpd_mem : st.ctrl.actions.getD
          (st.ctrl.choose (sensor.read st.inter) st.rng).1 (Phase.NS, 0) ∈ acts := by
        rw [List.getD_eq_getElem _ _ halt, ← hctrl]
        exact List.getElem_mem _
      set pd := st.ctrl.actions.getD
        (st.ctrl.choose (sensor.read st.inter) st.rng).1 (Phase.NS, 0) with hpd
      obtain ⟨i2, idx3, harr⟩ := arrivalLoop_isSome g dt c f hstr hc1 m hL
        (st.t + pd.2) aF st.t st.inter idx2
        (by
          have h1 : pd.2 ≤ dmax := hdmax pd hpd_mem
          linarith)
      rw [← hrng] at har
      rw [har, harr]
      have hctrl2 : (if train then
          st.ctrl.update (sensor.read st.inter)
            (st.ctrl.choose (sensor.read st.inter) st.rng).1
            (((i2.serve pd.1 pd.2 (st.t + pd.2)).1.length : ℚ) * 10 -
              (sumQueues (i2.serve pd.1 pd.2 (st.t + pd.2)).2 : ℚ) * 2)
            (sensor.read (i2.serve pd.1 pd.2 (st.t + pd.2)).2)
        else st.ctrl).actions = acts := by
        cases train <;> simp [update_preserves_actions, hctrl]
      obtain ⟨st2, hrun, hge, hb2⟩ := ih
        ⟨st.t + pd.2, st.departed ++ (i2.serve pd.1 pd.2 (st.t + pd.2)).1,
          st.total_r + (((i2.serve pd.1 pd.2 (st.t + pd.2)).1.length : ℚ) * 10 -
            (sumQueues (i2.serve pd.1 pd.2 (st.t + pd.2)).2 : ℚ) * 2),
          (i2.serve pd.1 pd.2 (st.t + pd.2)).2,
          if train then
            st.ctrl.update (sensor.read st.inter)
              (st.ctrl.choose (sensor.read st.inter) st.rng).1
              (((i2.serve pd.1 pd.2 (st.t + pd.2)).1.length : ℚ) * 10 -
                (sumQueues (i2.serve pd.1 pd.2 (st.t + pd.2)).2 : ℚ) * 2)
              (sensor.read (i2.serve pd.1 pd.2 (st.t + pd.2)).2)
          else st.ctrl, ⟨f, idx3⟩⟩ idx3 rfl hctrl2
        (by
          have h2 : δ ≤ pd.2 := hδle pd hpd_mem
          show maxT ≤ st.t + pd.2 + (k : ℚ) * δ
          push_cast at hk
          linarith)
        (by
          have h1 : pd.2 ≤ dmax := hdmax pd hpd_mem
          show st.t + pd.2 < maxT + dmax
          linarith)
      exact ⟨st2, hrun, hge, hb2⟩
    · simp only [runLoop]
      rw [if_neg hlt]
      exact ⟨st, rfl, not_lt.mp hlt, hbound⟩

/-- C8: with a nonempty action list of strictly positive durations, a
positive micro-step, and genuine `random()` draws (bounded away from 1),
`Simulation.run` terminates (some finite fuel suffices for every loop) and
the final simulated time `t` satisfies `max_t ≤ t < max_t + dmax` where
`dmax` is the largest duration in the action list: the `t < max_t` check
precedes the step, the full duration is added after it, and a started
phase is never truncated. -/
theorem run_terminates_time_bound :
    ∀ (g : TrafficGenerator) (sensor : Sensor) (dt maxT : ℚ) (train : Bool)
      (inter : Intersection) (ctrl : QLearning) (f : ℕ → ℚ) (idx : ℕ) (c : ℚ),
      ctrl.actions ≠ [] →
      (∀ pd ∈ ctrl.actions, 0 < pd.2) →
      0 < dt → 0 ≤ maxT →
      (∀ j, 0 ≤ f j ∧ f j ≤ c) → c < 1 →
      (∀ d, 0 < g.fexp (-(g.rates d * dt))) →
      ∃ pF aF oF st,
        runLoop g sensor dt maxT train pF aF oF (initState inter ctrl ⟨f, idx⟩) = some st ∧
        Simulation.run g sensor dt inter ctrl ⟨f, idx⟩ maxT train pF aF oF =
          some (mkResult st) ∧
        maxT ≤ st.t ∧ st.t < maxT + pyMaxList (ctrl.actions.map Prod.snd) := by
  intro g sensor dt maxT train inter ctrl f idx c hacts hdur hdt hmaxT hstr hclt hLpos
  have hc0 : 0 ≤ c := le_trans (hstr 0).1 (hstr 0).2
  have hc1 : c ≤ 1 := le_of_lt hclt
  obtain ⟨mN, hmN⟩ := exists_pow_lt_of_lt_one (hLpos Dir.N) hclt
  obtain ⟨mS, hmS⟩ := exists_pow_lt_of_lt_one (hLpos Dir.S) hclt
  obtain ⟨mE, hmE⟩ := exists_pow_lt_of_lt_one (hLpos Dir.E) hclt
  obtain ⟨mW, hmW⟩ := exists_pow_lt_of_lt_one (hLpos Dir.W) hclt
  have hLm : ∀ d, c ^ (max (max mN mS) (max mE mW)) ≤ g.fexp (-(g.rates d * dt)) := by
    intro d
    cases d
    · exact le_trans (pow_le_pow_of_le_one hc0 hc1
        (le_trans (le_max_left mN mS) (le_max_left _ _))) (le_of_lt hmN)
    · exact le_trans (pow_le_pow_of_le_one hc0 hc1
        (le_trans (le_max_right mN mS) (le_max_left _ _))) (le_of_lt hmS)
    · exact le_trans (pow_le_pow_of_le_one hc0 hc1
        (le_trans (le_max_left mE mW) (le_max_right _ _))) (le_of_lt hmE)
    · exact le_trans (pow_le_pow_of_le_one hc0 hc1
        (le_trans (le_max_right mE mW) (le_max_right _ _))) (le_of_lt hmW)
  have hdursne : ctrl.actions.map Prod.snd ≠ [] := by
    simpa using hacts
  have hdmaxpos : 0 < pyMaxList (ctrl.actions.map Prod.snd) := by
    obtain ⟨pd, hpdmem, hpdeq⟩ := List.mem_map.mp (pyMaxList_mem _ hdursne)
    exact hpdeq ▸ hdur pd hpdmem
  have hδpos : 0 < pyMinList (ctrl.actions.map Prod.snd) := by
    obtain ⟨pd, hpdmem, hpdeq⟩ := List.mem_map.mp (pyMinList_mem _ hdursne)
    exact hpdeq ▸ hdur pd hpdmem
  have hδle : ∀ pd ∈ ctrl.actions, pyMinList (ctrl.actions.map Prod.snd) ≤ pd.2 :=
    fun pd hpd => pyMinList_lb _ pd.2 (List.mem_map_of_mem _ hpd)
  have hdmaxle : ∀ pd ∈ ctrl.actions, pd.2 ≤ pyMaxList (ctrl.actions.map Prod.snd) :=
    fun pd hpd => pyMaxList_ub _ pd.2 (List.mem_map_of_mem _ hpd)
  obtain ⟨aF, haF0⟩ := exists_nat_ge (pyMaxList (ctrl.actions.map Prod.snd) / dt)
  have haF : pyMaxList (ctrl.actions.map Prod.snd) ≤ (aF : ℚ) * dt := by
    rw [div_le_iff₀ hdt] at haF0
    linarith
  obtain ⟨oF, hoF0⟩ := exists_nat_ge (maxT / pyMinList (ctrl.actions.map Prod.snd))
  have hoF : maxT ≤ (oF : ℚ) * pyMinList (ctrl.actions.map Prod.snd) := by
    rw [div_le_iff₀ hδpos] at hoF0
    linarith
  obtain ⟨st, hrun, hge, hlt⟩ := runLoop_isSome g sensor dt maxT train c f hstr hc1
    (max (max mN mS) (max mE mW)) hLm ctrl.actions hacts
    (pyMinList (ctrl.actions.map Prod.snd)) (pyMaxList (ctrl.actions.map Prod.snd))
    hδle hdmaxle aF haF oF (initState inter ctrl ⟨f, idx⟩) idx rfl rfl
    (by
      show maxT ≤ 0 + (oF : ℚ) * pyMinList (ctrl.actions.map Prod.snd)
      linarith)
    (by
      show (0 : ℚ) < maxT + pyMaxList (ctrl.actions.map Prod.snd)
      linarith)
  exact ⟨max (max mN mS) (max mE mW) + 1, aF, oF, st, hrun,
    by simp [Simulation.run, hrun], hge, hlt⟩

/-- Witness for C8 on a concrete configuration: one action `(NS, 1)`,
`dt = 1`, `max_t = 2`, all-zero draw stream bounded by `1/2`, constant
float-exp table `1`. -/
theorem run_terminates_time_bound_witness :
    ∃ pF aF oF st,
      runLoop (TrafficGenerator.mk (fun _ => 1) fun _ => 1) defaultSensor 1 2 false pF aF oF
          (initState (Intersection.mk (fun _ => ⟨[]⟩) 1)
            (QLearning.mk [(Phase.NS, 1)] 1 1 0 fun _ => 0) ⟨fun _ => 0, 0⟩) = some st ∧
      Simulation.run (TrafficGenerator.mk (fun _ => 1) fun _ => 1) defaultSensor 1
          (Intersection.mk (fun _ => ⟨[]⟩) 1) (QLearning.mk [(Phase.NS, 1)] 1 1 0 fun _ => 0)
          ⟨fun _ => 0, 0⟩ 2 false pF aF oF = some (mkResult st) ∧
      (2 : ℚ) ≤ st.t ∧
      st.t < 2 + pyMaxList ((QLearning.mk [(Phase.NS, 1)] 1 1 0
        (fun _ => (0 : ℚ))).actions.map Prod.snd) :=
  run_terminates_time_bound (TrafficGenerator.mk (fun _ => 1) fun _ => 1) defaultSensor 1 2
    false (Intersection.mk (fun _ => ⟨[]⟩) 1) (QLearning.mk [(Phase.NS, 1)] 1 1 0 fun _ => 0)
    (fun _ => 0) 0 (1 / 2) (by simp) (by decide) (by norm_num) (by norm_num)
    (by intro j; constructor <;> norm_num) (by norm_num) (by intro d; norm_num)
